import Mathlib

/-!
# Verification of `withDefer` (src/index.ts)

A shallow embedding of the deferred-execution coordinator from
`src/index.ts` and proofs of its specification properties.

Modelling choices:

* A JavaScript runtime value that can be thrown is `JSVal`: a `TypeError`
  with its message, an `AggregateError` with its ordered error list and
  message, or an arbitrary user value identified by a numeric tag.
* User code (the work function and every cleanup callback) is modelled as a
  straight-line program `Body`: a sequence of calls to the registration
  handle `defer`, ended by a normal return or a `throw`.  A `defer` call
  site carries the runtime-type information of its argument (`isFunction`
  for `typeof arg === "function"`, `isPromise` for `arg instanceof
  Promise`), an observable identifier, and the callback's own body — a
  cleanup callback may itself call `defer`, exactly as a closure over the
  handle can in the source.
* Executions of cleanup callbacks are observed through a log of their
  identifiers, threaded through the semantics in execution order.
-/

/-- A JavaScript value as far as the coordinator can observe it: a
`TypeError` (with message), an `AggregateError` (with its ordered list of
collected errors and message), or any other runtime value identified by an
abstract tag. -/
inductive JSVal where
  | typeError (msg : String)
  | aggregate (errors : List JSVal) (msg : String)
  | value (tag : Nat)

/-- A straight-line user program: a sequence of calls to the registration
handle, ending in a normal completion (`ret`) or a throw (`throwErr`).
`deferCall isFunction isPromise id action rest` models the statement
`defer(arg); rest` where `typeof arg === "function"` iff `isFunction`,
`arg instanceof Promise` iff `isPromise`, and — when `arg` is callable —
invoking it executes the program `action`, observable as `id`. -/
inductive Body where
  | ret
  | throwErr (e : JSVal)
  | deferCall (isFunction isPromise : Bool) (id : Nat) (action : Body) (rest : Body)

/-- An entry of the `deferred` array: a registered cleanup callback, with
its observable identifier and its behaviour when invoked. -/
structure CleanupAction where
  id : Nat
  body : Body

/-- The body of the `defer` registration handle (src/index.ts lines 44-57):
validate the argument, then push it onto the `deferred` array.  The checks
are performed in source order: `typeof callback !== "function"` first,
`callback instanceof Promise` second.  Returns the updated array, or the
`TypeError` the handle throws. -/
def deferHandle (isFunction isPromise : Bool) (id : Nat) (action : Body)
    (deferred : List CleanupAction) : Except JSVal (List CleanupAction) :=
  if isFunction = false then
    .error (.typeError "defer() expects a function")
  else if isPromise = true then
    .error (.typeError ("defer() expects a function, not a Promise. " ++
      "Use defer(() => yourAsyncFunction()) instead"))
  else
    .ok (deferred ++ [⟨id, action⟩])

/-- Run a user program against the current `deferred` array.  Returns the
updated array and `some e` when the program terminates by throwing `e`
(including a `TypeError` thrown by a `defer` call and not caught), `none`
when it completes normally. -/
def runBody : Body → List CleanupAction → List CleanupAction × Option JSVal
  | .ret, deferred => (deferred, none)
  | .throwErr e, deferred => (deferred, some e)
  | .deferCall isFn isPr i a rest, deferred =>
    match deferHandle isFn isPr i a deferred with
    | .error e => (deferred, some e)
    | .ok deferred' => runBody rest deferred'

/-- Structural size of a program, used for termination of the drain loop. -/
def bodySize : Body → Nat
  | .ret => 1
  | .throwErr _ => 1
  | .deferCall _ _ _ a rest => 2 + bodySize a + bodySize rest

/-- Size of a registered cleanup callback. -/
def actSize (a : CleanupAction) : Nat := 1 + bodySize a.body

/-- Total size of a `deferred` array. -/
def listSize (ds : List CleanupAction) : Nat := (ds.map actSize).sum

theorem listSize_append (xs ys : List CleanupAction) :
    listSize (xs ++ ys) = listSize xs + listSize ys := by
  simp [listSize]

/-- Running a body can only grow the `deferred` array by callbacks taken
from inside the body, so the growth is bounded by the body's size. -/
theorem listSize_runBody (b : Body) :
    ∀ ds, listSize (runBody b ds).1 ≤ listSize ds + bodySize b := by
  induction b with
  | ret => intro ds; simp [runBody, bodySize]
  | throwErr e => intro ds; simp [runBody, bodySize]
  | deferCall isFn isPr i a rest iha ihrest =>
    intro ds
    by_cases hf : isFn = false
    · simp [runBody, deferHandle, hf, bodySize]
    · by_cases hp : isPr = true
      · simp [runBody, deferHandle, hf, hp, bodySize]
      · have h := ihrest (ds ++ [⟨i, a⟩])
        simp [runBody, deferHandle, hf, hp, bodySize, listSize_append,
          listSize, actSize] at h ⊢
        omega

/-- Popping the last callback and running its body strictly shrinks the
total size: the termination measure of the teardown loop. -/
theorem listSize_drain_step (deferred : List CleanupAction)
    (callback : CleanupAction) (h : deferred.getLast? = some callback) :
    listSize (runBody callback.body deferred.dropLast).1
      < listSize deferred := by
  have hne : deferred ≠ [] := by
    intro hnil; rw [hnil] at h; simp at h
  have hsplit : deferred.dropLast ++ [deferred.getLast hne] = deferred :=
    List.dropLast_append_getLast hne
  have hlast : deferred.getLast hne = callback := by
    have := List.getLast?_eq_getLast deferred hne
    rw [this] at h
    exact Option.some_injective _ h
  have hbound := listSize_runBody callback.body deferred.dropLast
  have htotal : listSize deferred
      = listSize deferred.dropLast + actSize callback := by
    calc listSize deferred
        = listSize (deferred.dropLast ++ [deferred.getLast hne]) := by
          rw [hsplit]
      _ = listSize deferred.dropLast + actSize callback := by
          rw [hlast, listSize_append]; simp [listSize]
  simp only [actSize] at htotal
  omega

/-- The teardown loop (src/index.ts lines 67-77): while the `deferred`
array is non-empty, pop the most recently pushed callback, invoke it
(appending its identifier to the execution log), and on failure append the
thrown error to `errors`; the callback may itself push further entries.
Returns the final log and error collection. -/
def drain (deferred : List CleanupAction) (log : List Nat)
    (errors : List JSVal) : List Nat × List JSVal :=
  match h : deferred.getLast? with
  | none => (log, errors)
  | some callback =>
    let r := runBody callback.body deferred.dropLast
    drain r.1 (log ++ [callback.id])
      (match r.2 with | none => errors | some e => errors ++ [e])
termination_by listSize deferred
decreasing_by
  exact listSize_drain_step deferred callback h

/-- The argument of `withDefer` as the coordinator can observe it: either a
function — a work program together with the value it returns on normal
completion — or a non-callable value. -/
inductive WorkArg (α : Type) where
  | fn (body : Body) (value : α)
  | notFunction

/-- The tail of `withDefer` (src/index.ts lines 59-83) after the work
function has settled: seed the error collection with the work failure if
any, drain the `deferred` array, then either throw one `AggregateError`
over the collected errors or resolve with the work result. -/
def finishDefer {α : Type} (res : Except JSVal α)
    (deferred : List CleanupAction) (log : List Nat) :
    Except JSVal α × List Nat :=
  let errors0 : List JSVal := match res with
    | .ok _ => []
    | .error e => [e]
  let p := drain deferred log errors0
  if p.2.length > 0 then
    (.error (.aggregate p.2 "Errors in defer execution"), p.1)
  else
    (res, p.1)

/-- The coordinator `withDefer` (src/index.ts lines 35-84).  The extra
`log` argument threads the ambient execution log, so that executions of
cleanup callbacks are observable in global order (the source logs nothing;
this is pure instrumentation).  Returns the settled outcome and the final
log. -/
def withDefer {α : Type} (fn : WorkArg α) (log : List Nat) :
    Except JSVal α × List Nat :=
  match fn with
  | .notFunction => (.error (.typeError "withDefer() expects a function"), log)
  | .fn body value =>
    let r := runBody body []
    let res : Except JSVal α := match r.2 with
      | none => .ok value
      | some e => .error e
    finishDefer res r.1 log

/-- A body is simple when it makes no `defer` calls: it just returns or
throws.  A simple callback models an ordinary cleanup function that does
not capture the registration handle. -/
def Body.isSimple : Body → Bool
  | .ret => true
  | .throwErr _ => true
  | .deferCall _ _ _ _ _ => false

/-- The error a simple callback throws when invoked, if any. -/
def actErr (a : CleanupAction) : Option JSVal :=
  match a.body with
  | .throwErr e => some e
  | _ => none

/-- Identifiers of a list of registered callbacks, in reverse
(registration-opposite, i.e. teardown) order. -/
def revIds (ds : List CleanupAction) : List Nat :=
  (ds.map CleanupAction.id).reverse

/-- The straight-line program that registers each given callback in order,
each time with a callable, non-promise argument, then returns normally. -/
def regBody (acts : List CleanupAction) : Body :=
  acts.foldr (fun a b => .deferCall true false a.id a.body b) .ret

/-- Sequencing of straight-line programs: run the first; when it completes
normally, continue with the second; a throw short-circuits. -/
def Body.seq : Body → Body → Body
  | .ret, b2 => b2
  | .throwErr e, _ => .throwErr e
  | .deferCall f p i a rest, b2 => .deferCall f p i a (rest.seq b2)

/-- The Error Collection as it stands at the end of teardown for a given
work program: the work failure (if any) followed by every error thrown
during the drain, in insertion order. -/
def errorCollection (body : Body) : List JSVal :=
  let r := runBody body []
  let errors0 : List JSVal := match r.2 with
    | none => []
    | some e => [e]
  (drain r.1 [] errors0).2

/-- The execution, against the outer invocation's `deferred` array, of an
outer work function of the shape `pre; await withDefer(innerFn); post;
return v` — the direct translation of a work function that runs and awaits
one nested coordinator invocation between two straight-line phases.  The
inner invocation gets its own fresh state (only the ambient log is shared);
its rejection, if any, propagates as the outer work function's failure.
Returns the outer `deferred` array, the log, and the outer work outcome. -/
def runNestedWork {α β : Type} (pre : Body) (innerFn : WorkArg β)
    (post : Body) (v : α) (deferred : List CleanupAction) (log : List Nat) :
    List CleanupAction × List Nat × Except JSVal α :=
  match runBody pre deferred with
  | (ds1, some e) => (ds1, log, .error e)
  | (ds1, none) =>
    match withDefer innerFn log with
    | (.error e, log1) => (ds1, log1, .error e)
    | (.ok _, log1) =>
      match runBody post ds1 with
      | (ds2, some e) => (ds2, log1, .error e)
      | (ds2, none) => (ds2, log1, .ok v)

/-- An outer `withDefer` invocation whose work function is the nested shape
of `runNestedWork`: the same pipeline as `withDefer` (fresh `deferred`
array and error collection, then `finishDefer`), with the work phase given
by `runNestedWork`. -/
def withDeferNested {α β : Type} (pre : Body) (innerFn : WorkArg β)
    (post : Body) (v : α) (log : List Nat) : Except JSVal α × List Nat :=
  let t := runNestedWork pre innerFn post v [] log
  finishDefer t.2.2 t.1 t.2.1

theorem runBody_simple (a : CleanupAction) (h : a.body.isSimple = true)
    (ds : List CleanupAction) :
    runBody a.body ds = (ds, actErr a) := by
  cases hb : a.body with
  | ret => simp [runBody, actErr, hb]
  | throwErr e => simp [runBody, actErr, hb]
  | deferCall f p i ab rest => rw [hb] at h; simp [Body.isSimple] at h

theorem regBody_cons (a : CleanupAction) (rest : List CleanupAction) :
    regBody (a :: rest) = .deferCall true false a.id a.body (regBody rest) := rfl

theorem runBody_regBody (acts : List CleanupAction) :
    ∀ ds, runBody (regBody acts) ds = (ds ++ acts, none) := by
  induction acts with
  | nil => intro ds; simp [regBody, runBody]
  | cons a rest ih =>
    intro ds
    rw [regBody_cons]
    simp [runBody, deferHandle, ih]

theorem runBody_seq (b1 b2 : Body) : ∀ ds,
    runBody (b1.seq b2) ds =
      match runBody b1 ds with
      | (ds', none) => runBody b2 ds'
      | (ds', some e) => (ds', some e) := by
  induction b1 with
  | ret => intro ds; simp [Body.seq, runBody]
  | throwErr e => intro ds; simp [Body.seq, runBody]
  | deferCall f p i a rest ih1 ih2 =>
    intro ds
    by_cases hf : f = false
    · simp [Body.seq, runBody, deferHandle, hf]
    · by_cases hp : p = true
      · simp [Body.seq, runBody, deferHandle, hf, hp]
      · simp [Body.seq, runBody, deferHandle, hf, hp, ih2]

theorem drain_nil (log : List Nat) (errors : List JSVal) :
    drain [] log errors = (log, errors) := by
  rw [drain]
  rfl

theorem drain_concat (ds : List CleanupAction) (a : CleanupAction)
    (log : List Nat) (errors : List JSVal) :
    drain (ds ++ [a]) log errors =
      drain (runBody a.body ds).1 (log ++ [a.id])
        (match (runBody a.body ds).2 with
         | none => errors
         | some e => errors ++ [e]) := by
  rw [drain]
  split
  · next h => rw [List.getLast?_concat] at h; exact absurd h (by simp)
  · next callback h =>
    rw [List.getLast?_concat] at h
    have hc : callback = a := by injection h with h; exact h.symm
    subst hc
    rw [List.dropLast_concat]

theorem drain_eq_none (ds : List CleanupAction) (h : ds.getLast? = none)
    (log : List Nat) (errors : List JSVal) :
    drain ds log errors = (log, errors) := by
  have hnil : ds = [] := by
    cases ds with
    | nil => rfl
    | cons x xs =>
      rw [List.getLast?_eq_getLast _ (by simp)] at h
      simp at h
  subst hnil
  exact drain_nil log errors

theorem drain_eq_some (ds : List CleanupAction) (cb : CleanupAction)
    (h : ds.getLast? = some cb) (log : List Nat) (errors : List JSVal) :
    drain ds log errors =
      drain (runBody cb.body ds.dropLast).1 (log ++ [cb.id])
        (match (runBody cb.body ds.dropLast).2 with
         | none => errors
         | some e => errors ++ [e]) := by
  have hne : ds ≠ [] := by intro hnil; rw [hnil] at h; simp at h
  have hsplit := List.dropLast_append_getLast hne
  have hlast : ds.getLast hne = cb := by
    rw [List.getLast?_eq_getLast ds hne] at h
    injection h
  conv_lhs => rw [← hsplit, hlast]
  rw [drain_concat]

theorem drain_accum_aux (n : Nat) : ∀ (ds : List CleanupAction),
    listSize ds ≤ n → ∀ log errors extraL extraE,
    drain ds (extraL ++ log) (extraE ++ errors)
      = (extraL ++ (drain ds log errors).1,
         extraE ++ (drain ds log errors).2) := by
  induction n with
  | zero =>
    intro ds hn log errors extraL extraE
    cases hlast : ds.getLast? with
    | none => rw [drain_eq_none ds hlast, drain_eq_none ds hlast]
    | some cb =>
      have := listSize_drain_step ds cb hlast
      omega
  | succ n ih =>
    intro ds hn log errors extraL extraE
    cases hlast : ds.getLast? with
    | none => rw [drain_eq_none ds hlast, drain_eq_none ds hlast]
    | some cb =>
      have hlt := listSize_drain_step ds cb hlast
      rw [drain_eq_some ds cb hlast, drain_eq_some ds cb hlast]
      cases hr : (runBody cb.body ds.dropLast).2 with
      | none =>
        simp only [hr]
        rw [List.append_assoc]
        exact ih _ (by omega) _ _ extraL extraE
      | some er =>
        simp only [hr]
        rw [List.append_assoc, List.append_assoc extraE errors [er]]
        exact ih _ (by omega) _ _ extraL extraE

/-- The two accumulators of the drain loop are pure accumulators: a prefix
added to the incoming log or error collection reappears unchanged as a
prefix of the outgoing one. -/
theorem drain_accum (ds : List CleanupAction) (log : List Nat)
    (errors : List JSVal) :
    ∀ extraL extraE, drain ds (extraL ++ log) (extraE ++ errors)
      = (extraL ++ (drain ds log errors).1,
         extraE ++ (drain ds log errors).2) :=
  drain_accum_aux (listSize ds) ds le_rfl log errors

theorem drain_log_shift (ds : List CleanupAction) (log : List Nat)
    (errors : List JSVal) :
    drain ds log errors
      = (log ++ (drain ds [] errors).1, (drain ds [] errors).2) := by
  have h := drain_accum ds [] errors log []
  simp only [List.append_nil, List.nil_append] at h
  exact h

theorem drain_errors_extend (ds : List CleanupAction) (log : List Nat)
    (errors : List JSVal) :
    (drain ds log errors).2 = errors ++ (drain ds log []).2 := by
  have h := drain_accum ds log [] [] errors
  simp only [List.append_nil, List.nil_append] at h
  rw [h]

/-- Draining a list of simple callbacks executes each exactly once, in
reverse registration order, and appends exactly the errors of the failing
ones, in execution order. -/
theorem drain_simple (ds : List CleanupAction) :
    (∀ a ∈ ds, a.body.isSimple = true) →
    ∀ log errors, drain ds log errors
      = (log ++ revIds ds, errors ++ ds.reverse.filterMap actErr) := by
  induction ds using List.reverseRecOn with
  | nil => intro _ log errors; simp [drain_nil, revIds]
  | append_singleton xs a ih =>
    intro hs log errors
    have ha : a.body.isSimple = true := hs a (by simp)
    rw [drain_concat, runBody_simple a ha]
    cases he : actErr a with
    | none =>
      rw [ih (fun b hb => hs b (by simp [hb])) (log ++ [a.id]) errors]
      simp [revIds, he]
    | some er =>
      rw [ih (fun b hb => hs b (by simp [hb])) (log ++ [a.id]) (errors ++ [er])]
      simp [revIds, he]

theorem length_filterMap_isSome {α β : Type} (f : α → Option β)
    (l : List α) :
    (l.filterMap f).length = (l.filter (fun a => (f a).isSome)).length := by
  induction l with
  | nil => rfl
  | cons a rest ih =>
    cases h : f a <;> simp [List.filterMap_cons, List.filter_cons, h, ih]

theorem finishDefer_log {α : Type} (res : Except JSVal α)
    (ds : List CleanupAction) (log : List Nat) :
    (finishDefer res ds log).2
      = (drain ds log (match res with
          | .ok _ => [] | .error e => [e])).1 := by
  simp only [finishDefer]
  split <;> rfl

/-- Shared failure characterization: when the work phase ends with a thrown
error and every registered callback is simple, `withDefer` rejects with one
aggregate whose error list is the work failure followed by the callback
failures in execution (reverse-registration) order, after executing every
callback. -/
theorem withDefer_failure_eq {α : Type} (body : Body) (v : α) (e : JSVal)
    (ds : List CleanupAction) (log : List Nat)
    (hrun : runBody body [] = (ds, some e))
    (hsimple : ∀ a ∈ ds, a.body.isSimple = true) :
    withDefer (.fn body v) log
      = (.error (.aggregate (e :: ds.reverse.filterMap actErr)
          "Errors in defer execution"), log ++ revIds ds) := by
  simp only [withDefer, finishDefer, hrun]
  rw [drain_simple ds hsimple log [e]]
  simp

/-- C1: for every work function that registers a sequence of cleanup
callbacks (callbacks that make no further registrations) and in which
neither the work function nor any callback fails, `withDefer` executes
every callback in exactly reverse registration order and resolves with
exactly the work function's return value. -/
theorem withDefer_success_lifo {α : Type} (body : Body) (v : α)
    (ds : List CleanupAction) (log : List Nat)
    (hrun : runBody body [] = (ds, none))
    (hsimple : ∀ a ∈ ds, a.body.isSimple = true)
    (hok : ∀ a ∈ ds, actErr a = none) :
    withDefer (.fn body v) log = (.ok v, log ++ revIds ds) := by
  have hnil : ds.reverse.filterMap actErr = [] := by
    rw [List.filterMap_eq_nil_iff]
    intro a ha
    exact hok a (List.mem_reverse.mp ha)
  simp only [withDefer, finishDefer, hrun]
  rw [drain_simple ds hsimple log []]
  simp [hnil]

/-- Witness for C1: three callbacks logging 1, 2, 3 and a work function
returning 42 give result 42 and execution order 3, 2, 1. -/
theorem withDefer_success_lifo_witness :
    withDefer (.fn (regBody [⟨1, .ret⟩, ⟨2, .ret⟩, ⟨3, .ret⟩]) (42 : Nat)) []
      = (.ok 42, [3, 2, 1]) := by
  have h := withDefer_success_lifo
    (regBody [⟨1, .ret⟩, ⟨2, .ret⟩, ⟨3, .ret⟩]) (42 : Nat)
    [⟨1, .ret⟩, ⟨2, .ret⟩, ⟨3, .ret⟩] []
    rfl
    (by intro a ha; simp only [List.mem_cons] at ha
        rcases ha with h | h | h | h <;> first | (subst h; rfl) | cases h)
    (by intro a ha; simp only [List.mem_cons] at ha
        rcases ha with h | h | h | h <;> first | (subst h; rfl) | cases h)
  simpa [revIds] using h

/-- C2: for every work function that fails and registered callbacks that
may independently succeed or fail (making no further registrations), every
callback still executes exactly once, and the aggregate failure holds
exactly 1 + (number of failing callbacks) entries: the work failure first,
then the callback failures in reverse-registration (execution) order. -/
theorem withDefer_work_failure_aggregates {α : Type} (body : Body) (v : α)
    (e : JSVal) (ds : List CleanupAction) (log : List Nat)
    (hrun : runBody body [] = (ds, some e))
    (hsimple : ∀ a ∈ ds, a.body.isSimple = true) :
    withDefer (.fn body v) log
      = (.error (.aggregate (e :: ds.reverse.filterMap actErr)
          "Errors in defer execution"), log ++ revIds ds)
    ∧ (e :: ds.reverse.filterMap actErr).length
        = 1 + (ds.filter (fun a => (actErr a).isSome)).length := by
  refine ⟨withDefer_failure_eq body v e ds log hrun hsimple, ?_⟩
  simp [length_filterMap_isSome, List.filter_reverse, Nat.add_comm]

/-- Witness for C2: callbacks A (fails with value 11) then B (fails with
value 12), work throws value 100: both callbacks run (log 2 then 1) and the
aggregate reads 100, 12, 11 in that order. -/
theorem withDefer_work_failure_aggregates_witness :
    withDefer (.fn ((regBody [⟨1, .throwErr (.value 11)⟩,
        ⟨2, .throwErr (.value 12)⟩]).seq (.throwErr (.value 100)))
        (0 : Nat)) []
      = (.error (.aggregate [.value 100, .value 12, .value 11]
          "Errors in defer execution"), [2, 1])
    ∧ ([JSVal.value 100, .value 12, .value 11].length = 1 + 2) := by
  have h := withDefer_work_failure_aggregates
    ((regBody [⟨1, .throwErr (.value 11)⟩,
        ⟨2, .throwErr (.value 12)⟩]).seq (.throwErr (.value 100)))
    (0 : Nat) (.value 100)
    [⟨1, .throwErr (.value 11)⟩, ⟨2, .throwErr (.value 12)⟩] []
    rfl
    (by intro a ha; simp only [List.mem_cons] at ha
        rcases ha with h | h | h <;> first | (subst h; rfl) | cases h)
  refine ⟨?_, rfl⟩
  have h1 := h.1
  simpa [revIds, actErr] using h1

/-- C6: a `defer` call with an invalid argument made inside the work
function (and not caught there) propagates as the work function's failure:
it lands in the Error Collection and `withDefer` rejects with an aggregate
containing it (first, followed by the failures of the callbacks registered
before it), never with the bare `TypeError` and never before teardown. -/
theorem withDefer_registration_misuse_aggregated {α : Type}
    (preActs : List CleanupAction) (v : α) (isFn isPr : Bool) (i : Nat)
    (a rest : Body) (e : JSVal) (log : List Nat)
    (hbad : deferHandle isFn isPr i a preActs = .error e)
    (hsimple : ∀ b ∈ preActs, b.body.isSimple = true) :
    withDefer (.fn ((regBody preActs).seq
        (.deferCall isFn isPr i a rest)) v) log
      = (.error (.aggregate (e :: preActs.reverse.filterMap actErr)
          "Errors in defer execution"), log ++ revIds preActs) := by
  have hrun : runBody ((regBody preActs).seq
      (.deferCall isFn isPr i a rest)) [] = (preActs, some e) := by
    rw [runBody_seq, runBody_regBody]
    simp [runBody, hbad]
  exact withDefer_failure_eq _ v e preActs log hrun hsimple

/-- Witness for C6: one successful callback registered, then a `defer` call
on a non-callable: the invocation rejects with an aggregate whose first
entry is the `TypeError`, after the callback has run. -/
theorem withDefer_registration_misuse_aggregated_witness :
    withDefer (.fn ((regBody [⟨7, .ret⟩]).seq
        (.deferCall false false 9 .ret .ret)) (0 : Nat)) []
      = (.error (.aggregate [.typeError "defer() expects a function"]
          "Errors in defer execution"), [7]) := by
  have h := withDefer_registration_misuse_aggregated
    [⟨7, .ret⟩] (0 : Nat) false false 9 Body.ret Body.ret
    (.typeError "defer() expects a function") []
    rfl
    (by intro b hb; simp only [List.mem_cons] at hb
        rcases hb with h | h <;> first | (subst h; rfl) | cases h)
  simpa [revIds, actErr] using h

/-- C3: an invocation of `withDefer` (on a function argument) succeeds
exactly when the Error Collection at the end of teardown is empty, and
whenever the collection is non-empty — even with a single entry — the
invocation rejects with one composite `AggregateError` wrapping all
collected errors in their exact insertion order. -/
theorem withDefer_outcome_iff_errorCollection {α : Type} (body : Body)
    (v : α) (log : List Nat) :
    (withDefer (.fn body v) log).1
      = match errorCollection body with
        | [] => .ok v
        | e :: rest => .error (.aggregate (e :: rest)
            "Errors in defer execution") := by
  rcases hr : runBody body [] with ⟨ds, t⟩
  cases t with
  | none =>
    simp only [withDefer, finishDefer, errorCollection, hr]
    rw [drain_log_shift ds log []]
    cases hc : (drain ds [] []).2 with
    | nil => simp [hc]
    | cons e rest => simp [hc]
  | some e =>
    simp only [withDefer, finishDefer, errorCollection, hr]
    rw [drain_log_shift ds log [e]]
    obtain ⟨tail, htail⟩ : ∃ tail, (drain ds [] [e]).2 = [e] ++ tail :=
      ⟨(drain ds [] []).2, drain_errors_extend ds [] [e]⟩
    simp [htail]

/-- C5: a non-callable top-level argument makes `withDefer` reject
immediately with the bare type-violation `TypeError` whose message says it
"expects a function": the ambient log is untouched (no callback was
constructed or executed) and the error is not an `AggregateError`. -/
theorem withDefer_notFunction_direct (α : Type) (log : List Nat) :
    withDefer (α := α) .notFunction log
      = (.error (.typeError "withDefer() expects a function"), log)
    ∧ ∀ errs msg, (JSVal.typeError "withDefer() expects a function")
        ≠ .aggregate errs msg :=
  ⟨rfl, fun _ _ h => JSVal.noConfusion h⟩

/-- C7: a non-callable argument to the registration handle makes the handle
throw, synchronously at the call site, the designated `TypeError` saying it
"expects a function", and nothing is appended to the pending `deferred`
array: the array after the failed call is exactly the array before it. -/
theorem deferHandle_rejects_noncallable (isPr : Bool) (i : Nat)
    (a rest : Body) (ds : List CleanupAction) :
    deferHandle false isPr i a ds
        = .error (.typeError "defer() expects a function")
    ∧ runBody (.deferCall false isPr i a rest) ds
        = (ds, some (.typeError "defer() expects a function")) := by
  constructor
  · simp [deferHandle]
  · simp [runBody, deferHandle]

/-- C4: evaluating the registration handle at an actual in-flight Promise —
`typeof` gives "object", so `isFunction` is false while `isPromise` is true
— fires the first check and throws the generic "defer() expects a function"
message, not the distinct promise-specific message, which differs from it:
the `instanceof Promise` branch is unreachable for genuine promises. -/
theorem deferHandle_promise_gets_generic_message :
    deferHandle false true 0 .ret []
        = .error (.typeError "defer() expects a function")
    ∧ "defer() expects a function"
        ≠ "defer() expects a function, not a Promise. " ++
          "Use defer(() => yourAsyncFunction()) instead" := by
  refine ⟨rfl, ?_⟩
  decide

/-- C8 counterexample: the work function registers exactly one callback
(id 1) whose body itself invokes the registration handle (registering id 2)
when it runs during teardown.  At the start of teardown precisely that one
callback is pending (first conjunct), yet teardown executes ids 1 and then
2 (second conjunct): an append to the pending sequence made after teardown
began succeeded, and the late-appended callback was executed — the phases
are not closed off from one another. -/
theorem teardown_registration_executes :
    runBody (.deferCall true false 1
        (.deferCall true false 2 .ret .ret) .ret) []
      = ([⟨1, .deferCall true false 2 .ret .ret⟩], none)
    ∧ withDefer (.fn (.deferCall true false 1
          (.deferCall true false 2 .ret .ret) .ret) (0 : Nat)) []
        = (.ok 0, [1, 2]) := by
  have h1 : drain [⟨1, .deferCall true false 2 .ret .ret⟩] [] []
      = ([1, 2], []) := by
    rw [drain_eq_some [⟨1, .deferCall true false 2 .ret .ret⟩]
      ⟨1, .deferCall true false 2 .ret .ret⟩ (by rfl)]
    show drain [⟨2, .ret⟩] [1] [] = ([1, 2], [])
    rw [drain_eq_some [⟨2, .ret⟩] ⟨2, .ret⟩ (by rfl)]
    show drain [] [1, 2] [] = ([1, 2], [])
    exact drain_nil _ _
  refine ⟨rfl, ?_⟩
  have e1 : withDefer (.fn (.deferCall true false 1
        (.deferCall true false 2 .ret .ret) .ret) (0 : Nat)) []
      = finishDefer (.ok 0) [⟨1, .deferCall true false 2 .ret .ret⟩] [] := rfl
  rw [e1]
  simp [finishDefer, h1]

/-- C8 as amended: appends to the pending sequence occur during the work
function's execution and can also occur during teardown, when a callback
invokes the registration handle; the drain loop then executes the
late-registered callback as well.  Removals still occur only during
teardown.  Formally: draining a sequence whose last callback registers
callback (j, ab) and returns is the same as draining the sequence with
(j, ab) appended in its place, after logging the outer callback's id. -/
theorem drain_late_registration (ds : List CleanupAction) (i j : Nat)
    (ab : Body) (log : List Nat) (errors : List JSVal) :
    drain (ds ++ [⟨i, .deferCall true false j ab .ret⟩]) log errors
      = drain (ds ++ [⟨j, ab⟩]) (log ++ [i]) errors := by
  rw [drain_concat]
  simp [runBody, deferHandle]

/-- C10: the aggregate failure's ordered error list contains exactly the
values thrown by the work function and by the failing callbacks —
unchanged, with no per-entry wrapping and no entries other than the
collected failures: the Error Collection equals the optional work failure
followed by the callback failures in execution order, and the invocation
either resolves or rejects with precisely that list wrapped once. -/
theorem aggregate_contains_exact_thrown_values {α : Type} (body : Body)
    (v : α) (ds : List CleanupAction) (t : Option JSVal) (log : List Nat)
    (hrun : runBody body [] = (ds, t))
    (hsimple : ∀ a ∈ ds, a.body.isSimple = true) :
    errorCollection body = t.toList ++ ds.reverse.filterMap actErr
    ∧ ((withDefer (.fn body v) log).1 = .ok v
       ∨ (withDefer (.fn body v) log).1
          = .error (.aggregate (t.toList ++ ds.reverse.filterMap actErr)
              "Errors in defer execution")) := by
  constructor
  · cases t with
    | none =>
      simp only [errorCollection, hrun]
      rw [drain_simple ds hsimple [] []]
      simp
    | some e =>
      simp only [errorCollection, hrun]
      rw [drain_simple ds hsimple [] [e]]
      simp
  · cases t with
    | none =>
      simp only [withDefer, finishDefer, hrun]
      rw [drain_simple ds hsimple log []]
      cases hf : ds.reverse.filterMap actErr with
      | nil => left; simp [hf]
      | cons x xs => right; simp [hf]
    | some e =>
      right
      simp only [withDefer, finishDefer, hrun]
      rw [drain_simple ds hsimple log [e]]
      simp

/-- Witness for C10: work throws value 5 over callbacks failing with value
6 (id 1) and succeeding (id 2): the Error Collection is exactly the two
thrown values, work failure first, unchanged. -/
theorem aggregate_contains_exact_thrown_values_witness :
    errorCollection ((regBody [⟨1, .throwErr (.value 6)⟩, ⟨2, .ret⟩]).seq
        (.throwErr (.value 5)))
      = [.value 5, .value 6] := by
  have h := aggregate_contains_exact_thrown_values
    ((regBody [⟨1, .throwErr (.value 6)⟩, ⟨2, .ret⟩]).seq
      (.throwErr (.value 5)))
    (0 : Nat) [⟨1, .throwErr (.value 6)⟩, ⟨2, .ret⟩] (some (.value 5)) []
    rfl
    (by intro a ha; simp only [List.mem_cons] at ha
        rcases ha with h | h | h <;> first | (subst h; rfl) | cases h)
  simpa [actErr] using h.1

/-- C9: for an outer invocation whose work function registers some
callbacks, runs and awaits an inner `withDefer` invocation, registers more
callbacks and returns, the inner invocation's entire teardown happens
before control returns to the outer work function, and no callback
registered with the outer handle runs before the inner invocation's
callbacks: the global execution log is the inner teardown block first, then
the outer teardown block (reduced to the pre-registered callbacks when the
inner invocation rejects, since the outer work function then fails before
its post phase). -/
theorem withDeferNested_inner_teardown_first {α β : Type}
    (preActs innerActs postActs : List CleanupAction) (bv : β) (v : α)
    (log : List Nat)
    (hpre : ∀ a ∈ preActs, a.body.isSimple = true)
    (hinner : ∀ a ∈ innerActs, a.body.isSimple = true)
    (hpost : ∀ a ∈ postActs, a.body.isSimple = true) :
    (withDeferNested (regBody preActs) (.fn (regBody innerActs) bv)
        (regBody postActs) v log).2
      = log ++ revIds innerActs
          ++ (match innerActs.reverse.filterMap actErr with
              | [] => revIds (preActs ++ postActs)
              | _ :: _ => revIds preActs) := by
  have hboth : ∀ a ∈ preActs ++ postActs, a.body.isSimple = true := by
    intro a ha
    rcases List.mem_append.mp ha with h | h
    · exact hpre a h
    · exact hpost a h
  cases hie : innerActs.reverse.filterMap actErr with
  | nil =>
    have hinnerEq : withDefer (.fn (regBody innerActs) bv) log
        = (.ok bv, log ++ revIds innerActs) := by
      simp only [withDefer, finishDefer, runBody_regBody, List.nil_append]
      rw [drain_simple innerActs hinner log []]
      simp [hie]
    simp only [withDeferNested, runNestedWork, runBody_regBody,
      List.nil_append, hinnerEq, finishDefer_log]
    rw [drain_simple _ hboth]
  | cons e tail =>
    have hinnerEq : withDefer (.fn (regBody innerActs) bv) log
        = (.error (.aggregate (e :: tail) "Errors in defer execution"),
           log ++ revIds innerActs) := by
      simp only [withDefer, finishDefer, runBody_regBody, List.nil_append]
      rw [drain_simple innerActs hinner log []]
      simp [hie]
    simp only [withDeferNested, runNestedWork, runBody_regBody,
      List.nil_append, hinnerEq, finishDefer_log]
    rw [drain_simple _ hpre]

/-- Witness for C9: outer registers id 1, awaits an inner invocation that
registers ids 10 and 11, registers id 2 and returns: the global execution
order is 11, 10 (inner teardown, before control returns), then 2, 1. -/
theorem withDeferNested_inner_teardown_first_witness :
    (withDeferNested (regBody [⟨1, .ret⟩])
        (.fn (regBody [⟨10, .ret⟩, ⟨11, .ret⟩]) (0 : Nat))
        (regBody [⟨2, .ret⟩]) (0 : Nat) []).2
      = [11, 10, 2, 1] := by
  have h := withDeferNested_inner_teardown_first
    [⟨1, .ret⟩] [⟨10, .ret⟩, ⟨11, .ret⟩] [⟨2, .ret⟩] (0 : Nat) (0 : Nat) []
    (by intro a ha; simp only [List.mem_cons] at ha
        rcases ha with h | h <;> first | (subst h; rfl) | cases h)
    (by intro a ha; simp only [List.mem_cons] at ha
        rcases ha with h | h | h <;> first | (subst h; rfl) | cases h)
    (by intro a ha; simp only [List.mem_cons] at ha
        rcases ha with h | h <;> first | (subst h; rfl) | cases h)
  simpa [revIds, actErr] using h
